import Mathlib

/-!
Shallow embedding of the coder-toolbox MCP server's structural source
editor: the fuzzy patch engine of src/utils/fileEdits.ts and the
convention-based Java class locator of src/utils/javaFileSearch.ts with
its handler src/functions/locateJavaClass.ts.  Text is modelled as
List Char; the filesystem as a finite tree of entries; the external
unified-diff library (createTwoFilesPatch from the npm package diff) as a
function parameter, since that library is not part of this repository.
-/

/-- ECMAScript whitespace class matched by the regex class of blank
characters and by trim / trimStart: space, tab, line terminators, and the
Unicode space separators. -/
def isJsWhitespace (c : Char) : Bool :=
  c = ' ' || c = '\t' || c = '\n' || c = '\r' ||
  c.toNat = 11 || c.toNat = 12 || c.toNat = 0xa0 || c.toNat = 0x1680 ||
  (0x2000 ≤ c.toNat && c.toNat ≤ 0x200a) || c.toNat = 0x2028 || c.toNat = 0x2029 ||
  c.toNat = 0x202f || c.toNat = 0x205f || c.toNat = 0x3000 || c.toNat = 0xfeff

/-- Models line.match of a leading-blank-run regex: the longest leading run
of whitespace of a line (fileEdits.ts lines 61 and 64-65). -/
def leadingWS (l : List Char) : List Char := l.takeWhile isJsWhitespace

/-- JS String.prototype.trimStart. -/
def trimStartJs (l : List Char) : List Char := l.dropWhile isJsWhitespace

/-- JS String.prototype.trim. -/
def trimJs (l : List Char) : List Char :=
  ((l.dropWhile isJsWhitespace).reverse.dropWhile isJsWhitespace).reverse

/-- normalizeLineEndings (fileEdits.ts lines 7-9): a global regex replace of
each non-overlapping CRLF pair, scanning left to right, by a bare newline. -/
def normalizeLineEndings : List Char → List Char
  | [] => []
  | '\r' :: '\n' :: rest => '\n' :: normalizeLineEndings rest
  | c :: rest => c :: normalizeLineEndings rest

/-- JS String.prototype.split with a single-character separator: empty
segments are kept, and splitting the empty string yields one empty segment. -/
def splitSep (sep : Char) : List Char → List (List Char)
  | [] => [[]]
  | c :: rest =>
    if c = sep then [] :: splitSep sep rest
    else
      match splitSep sep rest with
      | [] => [[c]]
      | s :: ss => (c :: s) :: ss

/-- JS Array.prototype.join with a single-character separator. -/
def joinSep (sep : Char) : List (List Char) → List Char
  | [] => []
  | [s] => s
  | s :: s2 :: ss => s ++ sep :: joinSep sep (s2 :: ss)

/-- JS String.prototype.includes: pat occurs as a contiguous substring. -/
def isSub (pat : List Char) : List Char → Bool
  | [] => pat.isEmpty
  | c :: rest => pat.isPrefixOf (c :: rest) || isSub pat rest

/-- First-occurrence search: some (pre, post) splits the subject as
pre ++ pat ++ post at the leftmost occurrence of pat, the position JS
String.prototype.replace uses. -/
def splitAtSub (pat : List Char) : List Char → Option (List Char × List Char)
  | [] => if pat.isEmpty then some ([], []) else none
  | c :: rest =>
    if pat.isPrefixOf (c :: rest) then some ([], (c :: rest).drop pat.length)
    else (splitAtSub pat rest).map (fun p => (c :: p.1, p.2))

def backtickChar : Char := Char.ofNat 96

def apostropheChar : Char := Char.ofNat 39

/-- ECMAScript GetSubstitution for a string (non-regex) search pattern with
no capture groups: the dollar replacement patterns String.prototype.replace
recognises in its replacement string.  A dollar pair yields one dollar, a
dollar-ampersand the matched text, a dollar-backtick the text before the
match, a dollar-apostrophe the text after the match; any other dollar is
literal. -/
def getSubstitution (matched pre post : List Char) : List Char → List Char
  | [] => []
  | '$' :: rest =>
    match rest with
    | [] => ['$']
    | d :: rest2 =>
      if d = '$' then '$' :: getSubstitution matched pre post rest2
      else if d = '&' then matched ++ getSubstitution matched pre post rest2
      else if d = backtickChar then pre ++ getSubstitution matched pre post rest2
      else if d = apostropheChar then post ++ getSubstitution matched pre post rest2
      else '$' :: d :: getSubstitution matched pre post rest2
  | c :: rest => c :: getSubstitution matched pre post rest

/-- One element of the edits array of applyFileEdits
(classReplaceContent.ts lines 12-15). -/
structure EditOp where
  oldText : List Char
  newText : List Char

/-- Whitespace-tolerant window comparison (fileEdits.ts lines 52-58): the
window has at least oldLines-many lines and each pair of corresponding
lines is equal after trimming. -/
def windowOk (oldLines remaining : List (List Char)) : Bool :=
  decide (oldLines.length ≤ remaining.length) &&
  (oldLines.zip remaining).all (fun p => trimJs p.1 == trimJs p.2)

/-- Replacement-line construction (fileEdits.ts lines 62-71) for line j of
the split newText.  Line 0 inherits the matched block's leading whitespace;
a later line whose old and new leading-whitespace measurements are both
non-empty gets the inherited indent plus the JS Math.max floor at zero of
the indent-width difference (which is exactly Nat subtraction) in spaces;
otherwise the line is used verbatim. -/
def reindentGo (originalIndent : List Char) (oldLines : List (List Char)) :
    Nat → List (List Char) → List (List Char)
  | _, [] => []
  | j, line :: rest =>
    (if j = 0 then originalIndent ++ trimStartJs line
     else
       let oldIndent := ((oldLines[j]?).map leadingWS).getD []
       let newIndent := leadingWS line
       if oldIndent ≠ [] ∧ newIndent ≠ [] then
         originalIndent ++ List.replicate (newIndent.length - oldIndent.length) ' ' ++
           trimStartJs line
       else line) :: reindentGo originalIndent oldLines (j + 1) rest

/-- The tier 2 window scan of fileEdits.ts lines 52-78: try each start line
top to bottom; at the first whitespace-tolerant match splice the
re-indented newText lines over the window. -/
def tier2Scan (oldLines newLines : List (List Char)) :
    List (List Char) → Option (List (List Char))
  | [] => none
  | l :: rest =>
    if windowOk oldLines (l :: rest) then
      some (reindentGo (leadingWS l) oldLines 0 newLines ++ (l :: rest).drop oldLines.length)
    else (tier2Scan oldLines newLines rest).map (fun res => l :: res)

/-- One iteration of the edit loop (fileEdits.ts lines 39-78): tier 1 exact
substring replace of the first occurrence (with the JS replacement-pattern
expansion of the replacement string), else tier 2 whitespace-tolerant block
replace; none when neither tier matches. -/
def editApply (content : List Char) (op : EditOp) : Option (List Char) :=
  let normalizedOld := normalizeLineEndings op.oldText
  let normalizedNew := normalizeLineEndings op.newText
  match splitAtSub normalizedOld content with
  | some (pre, post) =>
    some (pre ++ getSubstitution normalizedOld pre post normalizedNew ++ post)
  | none =>
    match tier2Scan (splitSep '\n' normalizedOld) (splitSep '\n' normalizedNew)
        (splitSep '\n' content) with
    | some newContentLines => some (joinSep '\n' newContentLines)
    | none => none

/-- The thrown message of fileEdits.ts line 81, carrying the edit's original
(unnormalized) oldText. -/
def editNotFoundMsg (old : List Char) : List Char :=
  "Could not find exact match for edit:\n".toList ++ old

/-- The for-of loop of fileEdits.ts lines 39-83 over the batch: each edit
runs on the output of the previous one; the first edit matching neither
tier throws. -/
def applyEditsLoop (content : List Char) : List EditOp → Except (List Char) (List Char)
  | [] => .ok content
  | op :: rest =>
    match editApply content op with
    | some c => applyEditsLoop c rest
    | none => .error (editNotFoundMsg op.oldText)

/-- The while loop of fileEdits.ts lines 87-90 counting fence characters,
with enough fuel that the loop has always stopped before the fuel runs
out. -/
def fenceLenAux (diff : List Char) : Nat → Nat → Nat
  | 0, n => n
  | fuel + 1, n =>
    if isSub (List.replicate n backtickChar) diff then fenceLenAux diff fuel (n + 1) else n

/-- Number of fence characters chosen for the returned diff: the first
count, starting at three, whose run is not a substring of the diff body. -/
def fenceLen (diff : List Char) : Nat := fenceLenAux diff (diff.length + 1) 3

/-- The fenced diff block of fileEdits.ts line 91. -/
def formatFenced (diff : List Char) : List Char :=
  List.replicate (fenceLen diff) backtickChar ++ "diff".toList ++ '\n' :: diff ++
    List.replicate (fenceLen diff) backtickChar ++ "\n\n".toList

/-- createUnifiedDiff (fileEdits.ts lines 14-26): both sides are normalized
and handed to the external diff library, modelled as the parameter
patchFn because the library is not part of this repository. -/
def createUnifiedDiff (patchFn : List Char → List Char → List Char)
    (originalContent newContent : List Char) : List Char :=
  patchFn (normalizeLineEndings originalContent) (normalizeLineEndings newContent)

/-- applyFileEdits (fileEdits.ts lines 31-98) as a state-passing function on
the target file's on-disk content: the first component is the returned
fenced diff or the thrown message, the second the content on disk after the
call.  The single fs.writeFile of line 94 runs after the whole batch
succeeded and only when dryRun is false; a throw inside the loop
propagates before any write statement is reached, leaving the disk as it
was. -/
def applyFileEdits (patchFn : List Char → List Char → List Char) (disk : List Char)
    (edits : List EditOp) (dryRun : Bool) : Except (List Char) (List Char) × List Char :=
  let content := normalizeLineEndings disk
  match applyEditsLoop content edits with
  | .error e => (.error e, disk)
  | .ok modifiedContent =>
    let formatted := formatFenced (createUnifiedDiff patchFn content modifiedContent)
    (.ok formatted, if dryRun then disk else modifiedContent)

/-- A node of the project's directory tree.  A directory whose readable
flag is false models one on which fs.readdir throws. -/
inductive FsEntry where
  | file (name : List Char) (content : List Char)
  | dir (name : List Char) (readable : Bool) (entries : List FsEntry)

/-- FileSearchResult (javaFileSearch.ts lines 4-8). -/
structure FileSearchResult where
  found : Bool
  filepath : Option (List Char)
  content : Option (List Char)

/-- Path segments rendered with forward slashes, as path.join on a POSIX
host and the backslash normalization of javaFileSearch.ts line 31 both
produce. -/
def joinPath (segs : List (List Char)) : List Char := joinSep '/' segs

mutual

/-- Per-entry step of the for-of loop of searchInDirectory
(javaFileSearch.ts lines 17-35): a file named className plus the java
extension yields the found result; a readable directory is searched
recursively; some means the entry produced a found result (the TS code
only propagates a recursive result when result.found holds, and an
unreadable directory's readdir error is caught inside the recursive call,
making it contribute nothing).  rel is the path of the containing
directory relative to the project root, from which path.relative computes
the reported filepath. -/
def searchOne (className : List Char) (rel : List (List Char)) : FsEntry → Option FileSearchResult
  | .file name content =>
    if name = className ++ ".java".toList then
      some { found := true, filepath := some (joinPath (rel ++ [name])), content := some content }
    else none
  | .dir name readable entries =>
    if readable then searchList className (rel ++ [name]) entries else none

/-- The for-of loop of javaFileSearch.ts lines 17-36 over readdir entries,
in listing order, returning at the first found result. -/
def searchList (className : List Char) (rel : List (List Char)) : List FsEntry → Option FileSearchResult
  | [] => none
  | e :: rest =>
    match searchOne className rel e with
    | some r => some r
    | none => searchList className rel rest

end

/-- searchInDirectory (javaFileSearch.ts lines 13-41) called on the node at
the resolved search root: dirAbs is the absolute dirPath argument, rel the
same directory relative to the project root.  A readdir failure at the root
(an unreadable directory, or a path naming a plain file) is caught; the
catch and the exhausted loop both fall through to line 40, returning
found:false with the searched dirPath in the filepath field and no content
field. -/
def searchInDirectory (className : List Char) (dirAbs rel : List (List Char)) :
    FsEntry → FileSearchResult
  | .dir _ true entries =>
    match searchList className rel entries with
    | some r => r
    | none => { found := false, filepath := some (joinPath dirAbs), content := none }
  | _ => { found := false, filepath := some (joinPath dirAbs), content := none }

def strSource : List Char := "source".toList

def strTest : List Char := "test".toList

def strSrc : List Char := "src".toList

def strMain : List Char := "main".toList

def strJava : List Char := "java".toList

/-- JS truthiness of an optional string parameter: undefined and the empty
string are falsy. -/
def truthyOpt : Option (List Char) → Bool
  | none => false
  | some s => !s.isEmpty

/-- Message of the throw in javaFileSearch.ts line 57. -/
def configErrMsg : List Char := "Cannot specify package path without source type".toList

/-- getJavaRootPath (javaFileSearch.ts lines 46-62) expressed as the path
relative to projectPath: the fixed convention subtree for the given
sourceType, then, when a package path is truthy, either the throw (when
sourceType is falsy) or the dotted segments appended as directories. -/
def getJavaRootRel (sourceType packagePath : Option (List Char)) :
    Except (List Char) (List (List Char)) :=
  let searchPath :=
    if sourceType = some strTest then [strSrc, strTest, strJava]
    else if sourceType = some strSource then [strSrc, strMain, strJava]
    else [strSrc]
  if truthyOpt packagePath then
    if truthyOpt sourceType then .ok (searchPath ++ splitSep '.' (packagePath.getD []))
    else .error configErrMsg
  else .ok searchPath

/-- getJavaRootPath (javaFileSearch.ts lines 46-62): path.join of the
project root with the convention subtree. -/
def getJavaRootPath (projectPath : List (List Char)) (sourceType packagePath : Option (List Char)) :
    Except (List Char) (List (List Char)) :=
  (getJavaRootRel sourceType packagePath).map (fun p => projectPath ++ p)

def entryName : FsEntry → List Char
  | .file n _ => n
  | .dir n _ _ => n

def findEntry (name : List Char) : List FsEntry → Option FsEntry
  | [] => none
  | e :: rest => if entryName e = name then some e else findEntry name rest

/-- The fs.access existence check of locateJavaClass.ts line 43: resolve a
relative segment path inside the project tree. -/
def resolvePath : FsEntry → List (List Char) → Option FsEntry
  | e, [] => some e
  | .dir _ _ entries, s :: rest =>
    match findEntry s entries with
    | some e => resolvePath e rest
    | none => none
  | .file _ _, _ :: _ => none

/-- The schema-validated arguments of locate_java_class
(locateJavaClass.ts lines 11-22). -/
structure ClassLocationArgs where
  className : List Char
  sourceType : Option (List Char)
  packagePath : Option (List Char)

/-- The two success shapes of handleLocateJavaClass: the early found:false
with the searchPath when the resolved directory does not exist
(locateJavaClass.ts lines 44-51), or the result of the recursive search. -/
inductive LocateReply where
  | dirMissing (searchPath : List (List Char))
  | searched (r : FileSearchResult)

/-- handleLocateJavaClass (locateJavaClass.ts lines 32-66) after schema
validation, over the project tree projectRoot located at projectPath.  A
getJavaRootPath throw is caught at line 60 and re-raised to the caller as
the wrapped McpError message; a missing search directory returns the
found:false reply; otherwise the recursive search runs and its result is
returned. -/
def handleLocateJavaClass (projectRoot : FsEntry) (projectPath : List (List Char))
    (a : ClassLocationArgs) : Except (List Char) LocateReply :=
  match getJavaRootRel a.sourceType a.packagePath with
  | .error e => .error ("Failed to search for class: ".toList ++ e)
  | .ok rel =>
    match resolvePath projectRoot rel with
    | none => .ok (.dirMissing (projectPath ++ rel))
    | some node => .ok (.searched (searchInDirectory a.className (projectPath ++ rel) rel node))

/-- Modelled from the words of claim C10: the content split at each
non-overlapping CRLF occurrence, scanning left to right. -/
def splitOnCRLF : List Char → List (List Char)
  | [] => [[]]
  | '\r' :: '\n' :: rest => [] :: splitOnCRLF rest
  | c :: rest =>
    match splitOnCRLF rest with
    | [] => [[c]]
    | s :: ss => (c :: s) :: ss

/-- Modelled from the words of claim C5: the first replacement line
inherits the matched block's first-line leading whitespace; each subsequent
line receives that inherited indent plus max(0, new indent width minus old
indent width) spaces before its trimmed text; a line where the old or the
new indent measurement is empty is emitted verbatim. -/
def specReindentGo (inherited : List Char) (oldLines : List (List Char)) :
    Nat → List (List Char) → List (List Char)
  | _, [] => []
  | j, line :: rest =>
    (if j = 0 then inherited ++ trimStartJs line
     else
       let oldIndent := ((oldLines[j]?).map leadingWS).getD []
       let newIndent := leadingWS line
       if oldIndent = [] ∨ newIndent = [] then line
       else
         inherited ++
           List.replicate (Int.toNat (max 0 ((newIndent.length : Int) - (oldIndent.length : Int)))) ' ' ++
           trimStartJs line) :: specReindentGo inherited oldLines (j + 1) rest

/-- Modelled from the words of claim C5: a window of oldLines-many lines
starting at index i whose lines, compared after trimming, equal the
corresponding oldText lines. -/
def specMatchAt (contentLines oldLines : List (List Char)) (i : Nat) : Prop :=
  i + oldLines.length ≤ contentLines.length ∧
  ∀ j < oldLines.length, (oldLines[j]?).map trimJs = (contentLines[i + j]?).map trimJs

theorem isSub_iff (pat : List Char) : ∀ s, isSub pat s = true ↔ pat <:+: s := by
  intro s
  induction s with
  | nil =>
    simp [isSub, List.infix_nil, List.isEmpty_iff]
  | cons c rest ih =>
    rw [isSub, Bool.or_eq_true, List.infix_cons_iff, List.isPrefixOf_iff_prefix, ih]

theorem fenceLenAux_stops (d : List Char) :
    ∀ fuel n, d.length + 2 ≤ n + fuel →
      isSub (List.replicate (fenceLenAux d fuel n) backtickChar) d = false := by
  intro fuel
  induction fuel with
  | zero =>
    intro n hn
    rw [fenceLenAux]
    rw [Bool.eq_false_iff]
    intro hs
    have hle := ((isSub_iff _ _).mp hs).length_le
    rw [List.length_replicate] at hle
    omega
  | succ fuel ih =>
    intro n hn
    rw [fenceLenAux]
    split
    · exact ih (n + 1) (by omega)
    · rename_i hfalse
      exact Bool.not_eq_true _ |>.mp hfalse

theorem fenceLen_no_collision (d : List Char) :
    isSub (List.replicate (fenceLen d) backtickChar) d = false :=
  fenceLenAux_stops d (d.length + 1) 3 (by omega)

/-- C6: for every diff body, if the body contains a run of N consecutive
backtick characters (as a substring, which is what the while condition
of fileEdits.ts line 88 tests), then the fence delimiter the formatter
wraps the diff in consists of at least N + 1 backticks, and the returned
block is exactly that delimiter, the word diff, a newline, the body, the
delimiter again and a blank line. -/
theorem fence_exceeds_backtick_runs (d : List Char) (N : Nat)
    (h : isSub (List.replicate N backtickChar) d = true) :
    N + 1 ≤ fenceLen d ∧
    formatFenced d = List.replicate (fenceLen d) backtickChar ++ "diff".toList ++ '\n' :: d ++
      List.replicate (fenceLen d) backtickChar ++ "\n\n".toList := by
  refine ⟨?_, rfl⟩
  by_contra hlt
  push_neg at hlt
  have hfl : fenceLen d ≤ N := by omega
  have hpre : List.replicate (fenceLen d) backtickChar <+: List.replicate N backtickChar := by
    refine ⟨List.replicate (N - fenceLen d) backtickChar, ?_⟩
    rw [← List.replicate_add]
    congr 1
    omega
  have hinf : List.replicate (fenceLen d) backtickChar <:+: d :=
    hpre.isInfix.trans ((isSub_iff _ _).mp h)
  have := fenceLen_no_collision d
  rw [(isSub_iff _ _).mpr hinf] at this
  exact Bool.true_eq_false.mp this

theorem fence_exceeds_backtick_runs_witness :
    isSub (List.replicate 2 backtickChar) [backtickChar, backtickChar] = true ∧
    2 + 1 ≤ fenceLen [backtickChar, backtickChar] :=
  ⟨by decide, (fence_exceeds_backtick_runs [backtickChar, backtickChar] 2 (by decide)).1⟩

theorem splitOnCRLF_cons_ne (c : Char) (rest : List Char)
    (h : ∀ r, c = '\r' → rest = '\n' :: r → False) :
    splitOnCRLF (c :: rest) =
      (match splitOnCRLF rest with
       | [] => [[c]]
       | s :: ss => (c :: s) :: ss) := by
  rw [splitOnCRLF.eq_def]
  split
  · rename_i heq
    exact absurd heq (by simp)
  · rename_i x r heq
    rw [List.cons.injEq] at heq
    exact (h r heq.1 heq.2).elim
  · rename_i x c2 rest2 hno heq
    rw [List.cons.injEq] at heq
    obtain ⟨hc, hr⟩ := heq
    subst hc
    subst hr
    rfl

theorem normalize_cons_ne (c : Char) (rest : List Char)
    (h : ∀ r, c = '\r' → rest = '\n' :: r → False) :
    normalizeLineEndings (c :: rest) = c :: normalizeLineEndings rest := by
  rw [normalizeLineEndings.eq_def]
  split
  · rename_i heq
    exact absurd heq (by simp)
  · rename_i x r heq
    rw [List.cons.injEq] at heq
    exact (h r heq.1 heq.2).elim
  · rename_i x c2 rest2 hno heq
    rw [List.cons.injEq] at heq
    obtain ⟨hc, hr⟩ := heq
    subst hc
    subst hr
    rfl

theorem splitOnCRLF_ne_nil (s : List Char) : splitOnCRLF s ≠ [] := by
  induction s using splitOnCRLF.induct with
  | case1 => simp [splitOnCRLF]
  | case2 rest ih => simp [splitOnCRLF]
  | case3 c rest h hnil ih => exact absurd hnil ih
  | case4 c rest h s ss hsp ih =>
    rw [splitOnCRLF_cons_ne c rest h, hsp]
    simp

theorem normalize_eq_joinSplit (s : List Char) :
    normalizeLineEndings s = joinSep '\n' (splitOnCRLF s) := by
  induction s using splitOnCRLF.induct with
  | case1 => rfl
  | case2 rest ih =>
    rw [normalizeLineEndings, splitOnCRLF, ih]
    obtain ⟨l, ls, hl⟩ : ∃ l ls, splitOnCRLF rest = l :: ls := by
      cases hsp : splitOnCRLF rest with
      | nil => exact absurd hsp (splitOnCRLF_ne_nil rest)
      | cons l ls => exact ⟨l, ls, rfl⟩
    rw [hl]
    rfl
  | case3 c rest h hnil ih => exact absurd hnil (splitOnCRLF_ne_nil rest)
  | case4 c rest h s ss hsp ih =>
    rw [normalize_cons_ne c rest h, splitOnCRLF_cons_ne c rest h, hsp, ih, hsp]
    cases ss <;> simp [joinSep]

theorem normalize_of_no_crlf (s : List Char) (h : isSub ['\r', '\n'] s = false) :
    normalizeLineEndings s = s := by
  induction s using normalizeLineEndings.induct with
  | case1 => rfl
  | case2 rest ih =>
    exfalso
    rw [isSub] at h
    have : (['\r', '\n'] : List Char).isPrefixOf ('\r' :: '\n' :: rest) = true := by
      rw [List.isPrefixOf_iff_prefix]
      exact ⟨rest, rfl⟩
    rw [this] at h
    simp at h
  | case3 c rest hno ih =>
    rw [isSub, Bool.or_eq_false_iff] at h
    rw [normalize_cons_ne c rest hno, ih h.2]

/-- C10: the line-ending normalization applied to file content and edit
texts replaces exactly the non-overlapping occurrences of the CRLF pair
with a bare newline (equivalently, it splits at each such occurrence and
re-joins the pieces with newlines) and changes nothing else; in particular
content containing no CRLF pair at all, such as bare-carriage-return line
endings, is returned unchanged, so a lone carriage return is preserved. -/
theorem normalizeLineEndings_crlf_only (s : List Char) :
    normalizeLineEndings s = joinSep '\n' (splitOnCRLF s) ∧
    (isSub ['\r', '\n'] s = false → normalizeLineEndings s = s) :=
  ⟨normalize_eq_joinSplit s, normalize_of_no_crlf s⟩

theorem normalizeLineEndings_crlf_only_witness :
    normalizeLineEndings ['a', '\r', 'b'] = joinSep '\n' (splitOnCRLF ['a', '\r', 'b']) ∧
    (isSub ['\r', '\n'] ['a', '\r', 'b'] = false ∧
      normalizeLineEndings ['a', '\r', 'b'] = ['a', '\r', 'b']) :=
  ⟨(normalizeLineEndings_crlf_only ['a', '\r', 'b']).1,
   by decide, (normalizeLineEndings_crlf_only ['a', '\r', 'b']).2 (by decide)⟩

theorem applyEditsLoop_append_fail (op : EditOp) (post : List EditOp) :
    ∀ (pre : List EditOp) (c0 c : List Char), applyEditsLoop c0 pre = .ok c →
      editApply c op = none →
      applyEditsLoop c0 (pre ++ op :: post) = .error (editNotFoundMsg op.oldText) := by
  intro pre
  induction pre with
  | nil =>
    intro c0 c hpre hop
    rw [applyEditsLoop, Except.ok.injEq] at hpre
    subst hpre
    rw [List.nil_append, applyEditsLoop, hop]
  | cons p pre' ih =>
    intro c0 c hpre hop
    rw [applyEditsLoop] at hpre
    cases hp : editApply c0 p with
    | some c1 =>
      rw [hp] at hpre
      rw [List.cons_append, applyEditsLoop, hp]
      exact ih c1 c hpre hop
    | none =>
      rw [hp] at hpre
      exact absurd hpre (by simp)

/-- C1: for every batch in which some edit, when its turn comes, matches
neither the tier 1 exact substring search nor the tier 2
whitespace-tolerant window scan (here: all edits before it succeeded,
turning the working content into c, and the edit fails on c), applyFileEdits
fails with the message carrying that edit's original unmatched oldText,
and the content on disk after the call is identical to the content before
it — no write ever occurs before every edit has succeeded, even though the
earlier edits of the batch had matched. -/
theorem applyFileEdits_error_leaves_disk_unchanged
    (patchFn : List Char → List Char → List Char) (disk : List Char) (dryRun : Bool)
    (pre : List EditOp) (op : EditOp) (post : List EditOp) (c : List Char)
    (hpre : applyEditsLoop (normalizeLineEndings disk) pre = .ok c)
    (hop : editApply c op = none) :
    (applyFileEdits patchFn disk (pre ++ op :: post) dryRun).1 =
      .error (editNotFoundMsg op.oldText) ∧
    (applyFileEdits patchFn disk (pre ++ op :: post) dryRun).2 = disk := by
  have hloop := applyEditsLoop_append_fail op post pre (normalizeLineEndings disk) c hpre hop
  rw [applyFileEdits, hloop]
  exact ⟨rfl, rfl⟩

theorem applyFileEdits_error_leaves_disk_unchanged_witness :
    (applyFileEdits (fun _ _ => []) "ab".toList
      ([⟨"a".toList, "X".toList⟩] ++ (⟨"zz".toList, "y".toList⟩ : EditOp) :: []) false).1 =
      .error (editNotFoundMsg "zz".toList) ∧
    (applyFileEdits (fun _ _ => []) "ab".toList
      ([⟨"a".toList, "X".toList⟩] ++ (⟨"zz".toList, "y".toList⟩ : EditOp) :: []) false).2 =
      "ab".toList :=
  applyFileEdits_error_leaves_disk_unchanged (fun _ _ => []) "ab".toList false
    [⟨"a".toList, "X".toList⟩] ⟨"zz".toList, "y".toList⟩ [] "Xb".toList rfl rfl

/-- C7: running applyFileEdits with dryRun true never changes the on-disk
content, whatever the batch contains, and the returned value (the fenced
diff on success, the message on failure) is the same one a non-dry-run
invocation on the same inputs returns: the diff computation does not
depend on the dryRun flag. -/
theorem dryRun_same_diff_no_write (patchFn : List Char → List Char → List Char)
    (disk : List Char) (edits : List EditOp) :
    (applyFileEdits patchFn disk edits true).2 = disk ∧
    (applyFileEdits patchFn disk edits true).1 = (applyFileEdits patchFn disk edits false).1 := by
  rw [applyFileEdits, applyFileEdits]
  cases applyEditsLoop (normalizeLineEndings disk) edits <;> simp

/-- C4 at the failing input: the code does not replace the first occurrence
with the (normalized) newText when the newText contains JS replacement
patterns.  Editing the content ab with oldText a and newText of two dollar
characters yields a single dollar (JS String.prototype.replace collapses a
dollar pair), not the newText itself, so the result is not the
literal-replacement result the claim and the spec describe. -/
theorem dollarPattern_replacement_bug :
    applyEditsLoop "ab".toList [⟨"a".toList, "$$".toList⟩] = .ok "$b".toList ∧
    "$b".toList ≠ "$$b".toList :=
  ⟨rfl, by decide⟩

/-- C3 counterexample: a batch whose only edit has an empty oldText is not
rejected: the loop accepts it (tier 1 trivially matches, since every
string contains the empty string) and, on a non-dry run, the file is
rewritten with the newText inserted at the start — so file I/O does occur
and the accepted EditOperation has an empty oldText. -/
theorem emptyOldText_accepted_cex :
    applyEditsLoop "abc".toList [⟨[], "X".toList⟩] = .ok "Xabc".toList ∧
    (applyFileEdits (fun _ _ => []) "abc".toList [⟨[], "X".toList⟩] false).2 = "Xabc".toList :=
  ⟨rfl, rfl⟩

/-- C3 amended: an edit whose oldText is the empty string is never
rejected — no emptiness validation exists anywhere on the path — and it
always takes the tier 1 branch, which inserts the (normalized,
replacement-pattern-expanded) newText at position zero of the working
content, in front of the entire previous content. -/
theorem emptyOldText_tier1_prepends (content newText : List Char) :
    editApply content ⟨[], newText⟩ =
      some (getSubstitution [] [] content (normalizeLineEndings newText) ++ content) := by
  cases content with
  | nil => simp [editApply, splitAtSub, normalizeLineEndings]
  | cons c rest => simp [editApply, splitAtSub, normalizeLineEndings, List.isPrefixOf]

/-- C8: getJavaRootPath joins the project root with the fixed convention
subtree — src/test/java for the test classification, src/main/java for the
source classification (the two are distinct), and the shared src fallback
when the classification is unspecified — then appends each dotted segment
of the package path as one nested directory; and it fails with the
configuration error message whenever a (truthy) package path is supplied
while the classification is unspecified. -/
theorem getJavaRootPath_convention (root : List (List Char)) (pp : List Char) :
    getJavaRootPath root (some strTest) none = .ok (root ++ [strSrc, strTest, strJava]) ∧
    getJavaRootPath root (some strSource) none = .ok (root ++ [strSrc, strMain, strJava]) ∧
    getJavaRootPath root none none = .ok (root ++ [strSrc]) ∧
    [strSrc, strTest, strJava] ≠ [strSrc, strMain, strJava] ∧
    (pp ≠ [] →
      getJavaRootPath root (some strTest) (some pp) =
        .ok (root ++ ([strSrc, strTest, strJava] ++ splitSep '.' pp)) ∧
      getJavaRootPath root (some strSource) (some pp) =
        .ok (root ++ ([strSrc, strMain, strJava] ++ splitSep '.' pp)) ∧
      getJavaRootPath root none (some pp) = .error configErrMsg) := by
  refine ⟨rfl, rfl, rfl, by decide, fun hpp => ?_⟩
  obtain ⟨c, rest, rfl⟩ : ∃ c rest, pp = c :: rest := by
    cases pp with
    | nil => exact absurd rfl hpp
    | cons c rest => exact ⟨c, rest, rfl⟩
  exact ⟨rfl, rfl, rfl⟩

theorem getJavaRootPath_convention_witness :
    ("com".toList ≠ ([] : List Char)) ∧
    getJavaRootPath ["p".toList] none (some "com".toList) = .error configErrMsg :=
  ⟨by decide,
   ((getJavaRootPath_convention ["p".toList] "com".toList).2.2.2.2 (by decide)).2.2⟩

mutual

theorem searchOne_some_shape (className : List Char) (rel : List (List Char)) (e : FsEntry)
    (r : FileSearchResult) (h : searchOne className rel e = some r) :
    r.found = true ∧ r.filepath.isSome = true ∧ r.content.isSome = true := by
  cases e with
  | file name content =>
    rw [searchOne] at h
    split at h
    · rw [Option.some.injEq] at h
      subst h
      exact ⟨rfl, rfl, rfl⟩
    · exact absurd h (by simp)
  | dir name readable entries =>
    rw [searchOne] at h
    split at h
    · exact searchList_some_shape className (rel ++ [name]) entries r h
    · exact absurd h (by simp)

theorem searchList_some_shape (className : List Char) (rel : List (List Char))
    (l : List FsEntry) (r : FileSearchResult) (h : searchList className rel l = some r) :
    r.found = true ∧ r.filepath.isSome = true ∧ r.content.isSome = true := by
  cases l with
  | nil => exact absurd h (by rw [searchList]; simp)
  | cons e rest =>
    rw [searchList] at h
    cases he : searchOne className rel e with
    | some r' =>
      rw [he, Option.some.injEq] at h
      subst h
      exact searchOne_some_shape className rel e r' he
    | none =>
      rw [he] at h
      exact searchList_some_shape className rel rest r h

end

/-- C2 counterexample: a not-found result of searchInDirectory does carry a
path field: searching an empty readable directory yields found false with
the searched directory path in filepath (javaFileSearch.ts line 40
returns the dirPath there), refuting the claim that a not-found result
carries neither a path nor a content field. -/
theorem searchInDirectory_notFound_carries_filepath_cex :
    (searchInDirectory "A".toList ["d".toList] [] (FsEntry.dir "d".toList true [])).found =
      false ∧
    (searchInDirectory "A".toList ["d".toList] [] (FsEntry.dir "d".toList true [])).filepath ≠
      none := by
  constructor <;> simp [searchInDirectory, searchList]

/-- C2 amended: for every result of searchInDirectory, found is true if and
only if both the filepath and the content field are present; a not-found
result carries no content field but does carry a filepath field, holding
the searched directory path. -/
theorem searchInDirectory_found_iff_fields (className : List Char)
    (dirAbs rel : List (List Char)) (node : FsEntry) :
    ((searchInDirectory className dirAbs rel node).found = true ↔
      ((searchInDirectory className dirAbs rel node).filepath.isSome = true ∧
       (searchInDirectory className dirAbs rel node).content.isSome = true)) ∧
    ((searchInDirectory className dirAbs rel node).found = false →
      (searchInDirectory className dirAbs rel node).filepath.isSome = true ∧
      (searchInDirectory className dirAbs rel node).content = none) := by
  cases node with
  | file name content => exact ⟨by simp [searchInDirectory], by simp [searchInDirectory]⟩
  | dir name readable entries =>
    cases readable with
    | false => exact ⟨by simp [searchInDirectory], by simp [searchInDirectory]⟩
    | true =>
      rw [searchInDirectory]
      cases hs : searchList className rel entries with
      | some r =>
        obtain ⟨hf, hp, hc⟩ := searchList_some_shape className rel entries r hs
        refine ⟨⟨fun _ => ⟨hp, hc⟩, fun _ => hf⟩, fun hff => ?_⟩
        rw [hf] at hff
        exact absurd hff (by simp)
      | none => exact ⟨by simp, by simp⟩

theorem searchInDirectory_found_iff_fields_witness :
    (searchInDirectory "A".toList ["d".toList] [] (FsEntry.dir "d".toList true [])).filepath.isSome =
      true ∧
    (searchInDirectory "A".toList ["d".toList] [] (FsEntry.dir "d".toList true [])).content =
      none := by
  have hf : (searchInDirectory "A".toList ["d".toList] []
      (FsEntry.dir "d".toList true [])).found = false := by
    simp [searchInDirectory, searchList]
  exact (searchInDirectory_found_iff_fields "A".toList ["d".toList] []
    (FsEntry.dir "d".toList true [])).2 hf

/-- C9 counterexample: a locate invocation can raise an error to the
caller: arguments that pass the schema but pair a package path with an
unspecified source type make getJavaRootPath throw inside the handler's
try, and the catch re-raises the wrapped message instead of returning a
found:false result. -/
theorem handleLocateJavaClass_packagePath_error_cex :
    handleLocateJavaClass (FsEntry.dir "p".toList true []) ["p".toList]
      ⟨"A".toList, none, some "com".toList⟩ =
      .error ("Failed to search for class: ".toList ++ configErrMsg) := rfl

/-- C9 amended: a locate invocation never raises an error to the caller
provided its arguments do not pair a truthy package path with a falsy
source type (in that excluded case the configuration error is wrapped and
re-raised); under that proviso the handler always returns a reply, and a
missing resolved directory yields the immediate found:false reply carrying
the searchPath.  Moreover, independently of the arguments, an unreadable
subdirectory encountered during the search is treated as no match in that
branch — the entry loop simply continues past it — and when the loop
exhausts the tree without a match the search returns the found:false
result rather than an error. -/
theorem handleLocateJavaClass_no_error_amended (projectRoot : FsEntry)
    (projectPath : List (List Char)) (a : ClassLocationArgs)
    (h : truthyOpt a.packagePath = true → truthyOpt a.sourceType = true) :
    (∃ rep, handleLocateJavaClass projectRoot projectPath a = .ok rep) ∧
    (∀ rel, getJavaRootRel a.sourceType a.packagePath = .ok rel →
      resolvePath projectRoot rel = none →
      handleLocateJavaClass projectRoot projectPath a =
        .ok (.dirMissing (projectPath ++ rel))) ∧
    (∀ className rel name entries rest,
      searchList className rel (FsEntry.dir name false entries :: rest) =
        searchList className rel rest) ∧
    (∀ className dirAbs rel name entries,
      searchList className rel entries = none →
      searchInDirectory className dirAbs rel (FsEntry.dir name true entries) =
        { found := false, filepath := some (joinPath dirAbs), content := none }) := by
  obtain ⟨rel0, hrel0⟩ : ∃ rel0, getJavaRootRel a.sourceType a.packagePath = .ok rel0 := by
    rw [getJavaRootRel]
    cases hpp : truthyOpt a.packagePath with
    | false => exact ⟨_, rfl⟩
    | true =>
      rw [h hpp]
      exact ⟨_, rfl⟩
  refine ⟨?_, ?_, ?_, ?_⟩
  · rw [handleLocateJavaClass, hrel0]
    cases hres : resolvePath projectRoot rel0 with
    | none => exact ⟨LocateReply.dirMissing (projectPath ++ rel0), by simp only [hres]⟩
    | some node =>
      exact ⟨LocateReply.searched
        (searchInDirectory a.className (projectPath ++ rel0) rel0 node), by simp only [hres]⟩
  · intro rel hrel hres
    rw [handleLocateJavaClass, hrel]
    simp only [hres]
  · intro className rel name entries rest
    rw [searchList, searchOne]
    simp
  · intro className dirAbs rel name entries hnone
    rw [searchInDirectory, hnone]

theorem handleLocateJavaClass_no_error_amended_witness :
    ∃ rep, handleLocateJavaClass (FsEntry.dir "p".toList true []) ["p".toList]
      ⟨"A".toList, none, none⟩ = .ok rep :=
  (handleLocateJavaClass_no_error_amended (FsEntry.dir "p".toList true []) ["p".toList]
    ⟨"A".toList, none, none⟩ (by decide)).1

theorem splitSep_ne_nil (sep : Char) (s : List Char) : splitSep sep s ≠ [] := by
  cases s with
  | nil => simp [splitSep]
  | cons c rest =>
    simp only [splitSep]
    split
    · simp
    · split <;> simp

theorem windowOk_iff : ∀ (oldLines remaining : List (List Char)),
    windowOk oldLines remaining = true ↔
      (oldLines.length ≤ remaining.length ∧
       ∀ j < oldLines.length, (oldLines[j]?).map trimJs = (remaining[j]?).map trimJs) := by
  intro oldLines
  induction oldLines with
  | nil =>
    intro remaining
    simp [windowOk]
  | cons o os ih =>
    intro remaining
    cases remaining with
    | nil => simp [windowOk]
    | cons r rs =>
      rw [windowOk, Bool.and_eq_true, decide_eq_true_iff, List.zip_cons_cons, List.all_cons,
        Bool.and_eq_true, beq_iff_eq]
      have ihr := ih rs
      rw [windowOk, Bool.and_eq_true, decide_eq_true_iff] at ihr
      constructor
      · rintro ⟨hlen, hhead, htail⟩
        have hlen' : os.length ≤ rs.length := by
          simp only [List.length_cons] at hlen
          omega
        have h2 := (ihr.mp ⟨hlen', htail⟩).2
        refine ⟨by simp only [List.length_cons]; omega, ?_⟩
        intro j hj
        cases j with
        | zero => simpa using hhead
        | succ j' =>
          rw [List.getElem?_cons_succ, List.getElem?_cons_succ]
          exact h2 j' (by simp only [List.length_cons] at hj; omega)
      · rintro ⟨hlen, hall⟩
        have hlen' : os.length ≤ rs.length := by
          simp only [List.length_cons] at hlen
          omega
        have h0 := hall 0 (by simp)
        refine ⟨by simp only [List.length_cons]; omega, by simpa using h0, ?_⟩
        have hrec := ihr.mpr ⟨hlen', fun j hj => ?_⟩
        · exact hrec.2
        · have := hall (j + 1) (by simp only [List.length_cons]; omega)
          rw [List.getElem?_cons_succ, List.getElem?_cons_succ] at this
          exact this

theorem windowOk_drop_iff (content oldLines : List (List Char)) (i : Nat)
    (hne : oldLines ≠ []) :
    windowOk oldLines (content.drop i) = true ↔ specMatchAt content oldLines i := by
  rw [windowOk_iff, specMatchAt]
  have hld : (content.drop i).length = content.length - i := by simp
  have hpos : 0 < oldLines.length := List.length_pos.mpr hne
  constructor
  · rintro ⟨h1, h2⟩
    refine ⟨by omega, fun j hj => ?_⟩
    rw [← List.getElem?_drop]
    exact h2 j hj
  · rintro ⟨h1, h2⟩
    refine ⟨by omega, fun j hj => ?_⟩
    rw [List.getElem?_drop]
    exact h2 j hj

theorem specMatchAt_succ (l : List Char) (rest oldLines : List (List Char)) (i : Nat) :
    specMatchAt (l :: rest) oldLines (i + 1) ↔ specMatchAt rest oldLines i := by
  rw [specMatchAt, specMatchAt]
  constructor
  · rintro ⟨h1, h2⟩
    refine ⟨by simp only [List.length_cons] at h1; omega, fun j hj => ?_⟩
    have := h2 j hj
    rw [show i + 1 + j = (i + j) + 1 from by omega, List.getElem?_cons_succ] at this
    exact this
  · rintro ⟨h1, h2⟩
    refine ⟨by simp only [List.length_cons]; omega, fun j hj => ?_⟩
    rw [show i + 1 + j = (i + j) + 1 from by omega, List.getElem?_cons_succ]
    exact h2 j hj

theorem specReindentGo_eq (inherited : List Char) (oldLines : List (List Char)) :
    ∀ j newLines, specReindentGo inherited oldLines j newLines =
      reindentGo inherited oldLines j newLines := by
  intro j newLines
  induction newLines generalizing j with
  | nil => rfl
  | cons line rest ih =>
    rw [specReindentGo, reindentGo, ih]
    congr 1
    dsimp only
    by_cases hj : j = 0
    · rw [if_pos hj, if_pos hj]
    · rw [if_neg hj, if_neg hj]
      by_cases h1 : ((oldLines[j]?).map leadingWS).getD [] = []
      · rw [if_pos (Or.inl h1), if_neg (fun hcon => hcon.1 h1)]
      · by_cases h2 : leadingWS line = []
        · rw [if_pos (Or.inr h2), if_neg (fun hcon => hcon.2 h2)]
        · have hcond : ¬(((oldLines[j]?).map leadingWS).getD [] = [] ∨ leadingWS line = []) := by
            intro hcon
            cases hcon with
            | inl hc => exact h1 hc
            | inr hc => exact h2 hc
          rw [if_neg hcond, if_pos ⟨h1, h2⟩]
          have hnum : (0 ⊔ (((leadingWS line).length : Int) -
              (((oldLines[j]?).map leadingWS).getD []).length)).toNat =
              (leadingWS line).length - (((oldLines[j]?).map leadingWS).getD []).length := by
            omega
          rw [hnum]

theorem tier2Scan_spec (oldLines newLines : List (List Char)) (hne : oldLines ≠ []) :
    ∀ contentLines res, tier2Scan oldLines newLines contentLines = some res →
      ∃ i, specMatchAt contentLines oldLines i ∧
        (∀ i' < i, ¬ specMatchAt contentLines oldLines i') ∧
        res = contentLines.take i ++
          reindentGo (leadingWS ((contentLines.drop i).headD [])) oldLines 0 newLines ++
          contentLines.drop (i + oldLines.length) := by
  intro contentLines
  induction contentLines with
  | nil =>
    intro res h
    rw [tier2Scan] at h
    exact absurd h (by simp)
  | cons l rest ih =>
    intro res h
    rw [tier2Scan] at h
    by_cases hw : windowOk oldLines (l :: rest) = true
    · rw [if_pos hw, Option.some.injEq] at h
      subst h
      refine ⟨0, ?_, fun i' hi' => absurd hi' (Nat.not_lt_zero i'), ?_⟩
      · rw [← windowOk_drop_iff _ _ _ hne, List.drop_zero]
        exact hw
      · rw [List.take_zero, List.drop_zero, Nat.zero_add, List.nil_append]
        rfl
    · rw [if_neg hw] at h
      rw [Option.map_eq_some'] at h
      obtain ⟨res', hres', hcons⟩ := h
      subst hcons
      obtain ⟨i, hm, hmin, hshape⟩ := ih res' hres'
      refine ⟨i + 1, (specMatchAt_succ l rest oldLines i).mpr hm, ?_, ?_⟩
      · intro i' hi'
        cases i' with
        | zero =>
          rw [← windowOk_drop_iff _ _ _ hne, List.drop_zero]
          exact hw
        | succ k =>
          rw [specMatchAt_succ]
          exact hmin k (by omega)
      · rw [List.take_succ_cons, List.drop_succ_cons,
          show i + 1 + oldLines.length = (i + oldLines.length) + 1 from by omega,
          List.drop_succ_cons, List.cons_append, List.cons_append]
        exact congrArg (fun t => l :: t) hshape

/-- C5: whenever the tier 2 scan succeeds, the window it replaced is the
first (topmost) window of oldText-line-count lines whose lines equal the
oldText lines after trimming, and the replacement consists of the newText
lines re-indented exactly as the claim describes: the first line inherits
the matched block's first-line leading whitespace; each subsequent line
receives that inherited indent plus max(0, new indent width minus old
indent width) spaces before its trimmed text; and a line whose old or new
indent measurement is empty is emitted verbatim. -/
theorem tier2_first_window_reindent (oldSrc newSrc : List Char)
    (contentLines res : List (List Char))
    (h : tier2Scan (splitSep '\n' oldSrc) (splitSep '\n' newSrc) contentLines = some res) :
    ∃ i, specMatchAt contentLines (splitSep '\n' oldSrc) i ∧
      (∀ i' < i, ¬ specMatchAt contentLines (splitSep '\n' oldSrc) i') ∧
      res = contentLines.take i ++
        specReindentGo (leadingWS ((contentLines.drop i).headD [])) (splitSep '\n' oldSrc) 0
          (splitSep '\n' newSrc) ++
        contentLines.drop (i + (splitSep '\n' oldSrc).length) := by
  obtain ⟨i, hm, hmin, hshape⟩ :=
    tier2Scan_spec (splitSep '\n' oldSrc) (splitSep '\n' newSrc)
      (splitSep_ne_nil '\n' oldSrc) contentLines res h
  exact ⟨i, hm, hmin, by rw [hshape, specReindentGo_eq]⟩

theorem tier2_first_window_reindent_witness :
    ∃ i, specMatchAt [['a']] (splitSep '\n' ['a']) i ∧
      (∀ i' < i, ¬ specMatchAt [['a']] (splitSep '\n' ['a']) i') ∧
      [['b']] = ([['a']] : List (List Char)).take i ++
        specReindentGo (leadingWS ((([['a']] : List (List Char)).drop i).headD []))
          (splitSep '\n' ['a']) 0 (splitSep '\n' ['b']) ++
        ([['a']] : List (List Char)).drop (i + (splitSep '\n' ['a']).length) :=
  tier2_first_window_reindent ['a'] ['b'] [['a']] [['b']] rfl


